import Mathlib

/-!
Verification of the core layout algorithms of the js-pdf-rtl library.

The TypeScript source is shallowly embedded here: machine numbers (widths,
coordinates) become rationals, the mutable memoization map becomes an explicit
association list threaded through the classifier, the asynchronous language
detector becomes an optional pure collaborator, and the drawing side effects of
the renderer become explicit event traces.  Every definition mirrors the
corresponding function of the source file; definitions whose name matches a
source symbol embed that symbol.
-/

namespace JsPdfRtl

/-- String constants used throughout (kept as named definitions). -/
def spaceStr : String := " "

def emptyStr : String := ""

/-- A word with its boldness and resolved script direction (source: RichWord). -/
structure RichWord where
  word : String
  isBold : Bool
  isRtlLang : Bool
  deriving DecidableEq, Repr

def dummyWord : RichWord := ⟨emptyStr, false, false⟩

/-- An input fragment of annotated text (source: RichTextFragment).
`isBold` is optional in the source. -/
structure RichTextFragment where
  text : String
  isBold : Option Bool
  deriving DecidableEq, Repr

/-- Text alignment (source: type Alignment). -/
inductive Alignment where
  | left : Alignment
  | center : Alignment
  | right : Alignment
  deriving DecidableEq, Repr

/-- Line metrics (source: interface LineMetrics). -/
structure LineMetrics where
  lineHeight : ℚ
  pageWidth : ℚ
  pageHeight : ℚ
  maxWidth : ℚ
  spaceWidth : ℚ
  leftMargin : ℚ
  rightMargin : ℚ
  topMargin : ℚ
  bottomMargin : ℚ
  deriving DecidableEq, Repr

/-- Source constant DEFAULT_MARGIN = 20. -/
def defaultMarginQ : ℚ := 20

/-- Source constant LINE_HEIGHT_MULTIPLIER = 0.5. -/
def lineHeightMultiplier : ℚ := 1 / 2

/-- The fixed right-to-left Unicode ranges of the fallback regex in
isWordRtlAsync: U+0600-U+06FF, U+0750-U+077F, U+08A0-U+08FF, U+FB50-U+FDFF,
U+FE70-U+FEFF (all Arabic-script blocks). -/
def isRtlCodepoint (c : Char) : Bool :=
  decide ((0x600 ≤ c.toNat ∧ c.toNat ≤ 0x6FF) ∨
    (0x750 ≤ c.toNat ∧ c.toNat ≤ 0x77F) ∨
    (0x8A0 ≤ c.toNat ∧ c.toNat ≤ 0x8FF) ∨
    (0xFB50 ≤ c.toNat ∧ c.toNat ≤ 0xFDFF) ∨
    (0xFE70 ≤ c.toNat ∧ c.toNat ≤ 0xFEFF))

/-- The fallback test `/[...]/.test(word)` of isWordRtlAsync. -/
def rtlFallback (w : String) : Bool :=
  w.data.any isRtlCodepoint

/-- Result of one classification call: the boolean, the updated memoization
cache, and how many times `detector.findLanguage` was invoked during the call. -/
structure ClassifyResult where
  result : Bool
  cache : List (String × Bool)
  detectorCalls : Nat
  deriving DecidableEq, Repr

/-- Embedding of isWordRtlAsync.  The process-wide `rtlCache` Map is the
explicit association list `cache` (insertion is cons; `List.lookup` is
`Map.get`).  `det = none` models the language-identification collaborator
being unavailable (cld3 failed to load, or the detector lacks `findLanguage`);
`det = some find` models an available detector, where `find w = none` stands
for a thrown exception or a detection without a usable `language` field.
`lir` is the `isRtlLang` direction table (its `null` results are already
absorbed into `false`, as the source does with `|| false`). -/
def isWordRtlAsync (det : Option (String → Option String)) (lir : String → Bool)
    (cache : List (String × Bool)) (word : String) : ClassifyResult :=
  match List.lookup word cache with
  | some b => ⟨b, cache, 0⟩
  | none =>
    match det with
    | some find =>
      match find word with
      | some lang =>
        let r := lir lang
        ⟨r, (word, r) :: cache, 1⟩
      | none =>
        let r := rtlFallback word
        ⟨r, (word, r) :: cache, 1⟩
    | none =>
      let r := rtlFallback word
      ⟨r, (word, r) :: cache, 0⟩

/-- JavaScript `\s` character class (the split pattern /\s+/). -/
def isJsWhitespace (c : Char) : Bool :=
  decide (c.toNat = 0x9 ∨ c.toNat = 0xA ∨ c.toNat = 0xB ∨ c.toNat = 0xC ∨
    c.toNat = 0xD ∨ c.toNat = 0x20 ∨ c.toNat = 0xA0 ∨ c.toNat = 0x1680 ∨
    (0x2000 ≤ c.toNat ∧ c.toNat ≤ 0x200A) ∨ c.toNat = 0x2028 ∨
    c.toNat = 0x2029 ∨ c.toNat = 0x202F ∨ c.toNat = 0x205F ∨
    c.toNat = 0x3000 ∨ c.toNat = 0xFEFF)

/-- Helper for `text.split(/\s+/).filter(w => w.length > 0)`: collects the
maximal runs of non-whitespace characters. -/
def splitWordsGo (cur : List Char) : List Char → List (List Char)
  | [] => if cur.isEmpty then [] else [cur]
  | c :: cs =>
    if isJsWhitespace c then
      (if cur.isEmpty then [] else [cur]) ++ splitWordsGo [] cs
    else
      splitWordsGo (cur ++ [c]) cs

def splitWords (cs : List Char) : List (List Char) :=
  splitWordsGo [] cs

/-- The inner loop of processFragmentsToWords over the words of one fragment,
threading the memoization cache through the sequential classifications. -/
def processWordsGo (det : Option (String → Option String)) (lir : String → Bool)
    (isBold : Bool) (cache : List (String × Bool)) :
    List (List Char) → List RichWord × List (String × Bool)
  | [] => ([], cache)
  | cs :: rest =>
    let w := String.mk cs
    let r := isWordRtlAsync det lir cache w
    let rec' := processWordsGo det lir isBold r.cache rest
    (⟨w, isBold, r.result⟩ :: rec'.1, rec'.2)

/-- Embedding of processFragmentsToWords: split each fragment on whitespace,
drop empty tokens, classify each word (`fragment.isBold || false` is
`getD false`). -/
def processFragmentsToWords (det : Option (String → Option String))
    (lir : String → Bool) (cache : List (String × Bool)) :
    List RichTextFragment → List RichWord × List (String × Bool)
  | [] => ([], cache)
  | f :: fs =>
    let first := processWordsGo det lir (f.isBold.getD false) cache (splitWords f.text.data)
    let rest := processFragmentsToWords det lir first.2 fs
    (first.1 ++ rest.1, rest.2)

/-- Greedy line packing loop of buildRichLines.  `width` is the
`doc.getTextWidth` collaborator; `cw` accumulates the widths
`width (word ++ " ")` of the words of the current line, exactly as
`currentLineWidth` does in the source. -/
def buildGo (width : String → ℚ) (maxWidth : ℚ) :
    List RichWord → List RichWord → ℚ → List (List RichWord)
  | [], cur, _ => if cur.isEmpty then [] else [cur]
  | w :: ws, cur, cw =>
    let wps := width (w.word ++ spaceStr)
    if cur ≠ [] ∧ cw + wps > maxWidth then
      cur :: buildGo width maxWidth ws [w] wps
    else
      buildGo width maxWidth ws (cur ++ [w]) (cw + wps)

/-- Embedding of buildRichLines. -/
def buildRichLines (width : String → ℚ) (maxWidth : ℚ) (words : List RichWord) :
    List (List RichWord) :=
  buildGo width maxWidth words [] 0

/-- Pagination loop of layoutLinesAcrossPages.  The `onPageBreak` / `onLine`
callbacks are modelled by the event lists they emit (the source invokes them
for their side effects); the returned rational is the final cursor. -/
def layoutGo {α : Type} (m : LineMetrics) (onPageBreak : List α)
    (onLine : List RichWord → ℚ → List α) :
    List (List RichWord) → ℚ → List α × ℚ
  | [], y => ([], y)
  | l :: ls, y =>
    if y > m.pageHeight - m.bottomMargin then
      let yTop := max 0 (min m.topMargin (m.pageHeight - m.bottomMargin))
      let r := layoutGo m onPageBreak onLine ls (yTop + m.lineHeight)
      (onPageBreak ++ (onLine l yTop ++ r.1), r.2)
    else
      let r := layoutGo m onPageBreak onLine ls (y + m.lineHeight)
      (onLine l y ++ r.1, r.2)

/-- Embedding of layoutLinesAcrossPages (the source computes `bottomBoundary`
and `safeTopMargin` once before the loop; they are loop invariant, so they are
recomputed per step here with the same values). -/
def layoutLinesAcrossPages {α : Type} (m : LineMetrics) (onPageBreak : List α)
    (onLine : List RichWord → ℚ → List α) (lines : List (List RichWord))
    (currentY : ℚ) : List α × ℚ :=
  if lines.isEmpty then ([], currentY + m.lineHeight)
  else layoutGo m onPageBreak onLine lines currentY

/-- Event alphabet used to observe the pagination engine for claim C3. -/
inductive LayoutEvent where
  | pageBreak : LayoutEvent
  | line (l : List RichWord) (y : ℚ) : LayoutEvent
  deriving DecidableEq, Repr

/-- Modelled from the spec: the state machine described for the pagination
engine (spec 4.5 and claim C3), written directly from its words: cursor starts
at `startY`; per line, break and reset to `clamp(topMargin, 0,
pageHeight - bottomMargin)` when the cursor is past the bottom boundary, then
emit the line at the cursor, then advance by `lineHeight`. -/
def layoutClaimMachine (m : LineMetrics) :
    List (List RichWord) → ℚ → List LayoutEvent × ℚ
  | [], y => ([], y)
  | l :: ls, y =>
    if y > m.pageHeight - m.bottomMargin then
      let yTop := max 0 (min m.topMargin (m.pageHeight - m.bottomMargin))
      let r := layoutClaimMachine m ls (yTop + m.lineHeight)
      (LayoutEvent.pageBreak :: LayoutEvent.line l yTop :: r.1, r.2)
    else
      let r := layoutClaimMachine m ls (y + m.lineHeight)
      (LayoutEvent.line l y :: r.1, r.2)

/-- The `isRTL ? !currentLanguageType : currentLanguageType` test of
reverseLanguageSequences. -/
def shouldReverse (isRTL t : Bool) : Bool :=
  if isRTL then !t else t

/-- Flushing one completed run (the `result.push(...)` branches). -/
def flushRun (isRTL t : Bool) (cur : List RichWord) : List RichWord :=
  if shouldReverse isRTL t then cur.reverse else cur

/-- Main loop of reverseLanguageSequences: `cur` is the current (nonempty)
sequence, `t` its language type (`currentLanguageType`). -/
def rlsGo (isRTL : Bool) (cur : List RichWord) (t : Bool) :
    List RichWord → List RichWord
  | [] => flushRun isRTL t cur
  | w :: ws =>
    if w.isRtlLang = t then
      rlsGo isRTL (cur ++ [w]) t ws
    else
      flushRun isRTL t cur ++ rlsGo isRTL [w] w.isRtlLang ws

/-- Embedding of reverseLanguageSequences. -/
def reverseLanguageSequences (paragraph : List RichWord) (isRTL : Bool) :
    List RichWord :=
  match paragraph with
  | [] => []
  | w :: ws => rlsGo isRTL [w] w.isRtlLang ws

/-- Modelled from the spec: the partition of a word sequence into maximal runs
of consecutive words sharing the same `isRtl` flag (claim C4, spec 4.3).
`runsGo cur t ws` extends the open run `cur` of flag `t`. -/
def runsGo (cur : List RichWord) (t : Bool) : List RichWord → List (List RichWord)
  | [] => [cur]
  | w :: ws =>
    if w.isRtlLang = t then runsGo (cur ++ [w]) t ws
    else cur :: runsGo [w] w.isRtlLang ws

/-- Modelled from the spec: maximal same-direction runs of a word sequence. -/
def runs : List RichWord → List (List RichWord)
  | [] => []
  | w :: ws => runsGo [w] w.isRtlLang ws

/-- The direction flag of a run (flag of its first word). -/
def runHead (r : List RichWord) : Bool :=
  (r.headD dummyWord).isRtlLang

/-- Modelled from the spec: processing of a single run — reverse it exactly
when its own direction opposes the paragraph direction. -/
def procRun (isRTL : Bool) (r : List RichWord) : List RichWord :=
  if runHead r ≠ isRTL then r.reverse else r

/-- Well-formedness of a run list: every run is nonempty and uniform in its
flag, and adjacent runs have different flags (maximality). -/
def RunsWf (rs : List (List RichWord)) : Prop :=
  (∀ r ∈ rs, r ≠ [] ∧ ∀ w ∈ r, w.isRtlLang = runHead r) ∧
    List.Chain' (fun a b => runHead a ≠ runHead b) rs

/-- Leftmost non-overlapping replacement of the literal pattern `pat` by
`rep`, the semantics of JavaScript `String.replace` with a global literal
regex (used three times by swapParentheses). -/
def replaceSeq (pat rep : List Char) : List Char → List Char
  | [] => []
  | c :: cs =>
    if pat ≠ [] ∧ pat.isPrefixOf (c :: cs) then
      rep ++ replaceSeq pat rep (cs.drop (pat.length - 1))
    else
      c :: replaceSeq pat rep cs
  termination_by s => s.length
  decreasing_by
  · simp only [List.length_drop, List.length_cons]
    omega
  · simp only [List.length_cons]
    omega

/-- The sentinel string TEMP_MARKER of swapParentheses. -/
def markerChars : List Char :=
  ['T', 'E', 'M', 'P', '_', 'M', 'A', 'R', 'K', 'E', 'R']

/-- Embedding of swapParentheses: `(` → TEMP_MARKER, then `)` → `(`,
then TEMP_MARKER → `)`. -/
def swapParentheses (s : String) : String :=
  String.mk (replaceSeq markerChars [')']
    (replaceSeq [')'] ['('] (replaceSeq ['('] markerChars s.data)))

/-- The per-character swap the claim attributes to swapParentheses. -/
def swapChar (c : Char) : Char :=
  if c = '(' then ')' else if c = ')' then '(' else c

/-- The block each original character contributes after the first two
replacement passes of swapParentheses. -/
def gBlock (c : Char) : List Char :=
  if c = '(' then markerChars else if c = ')' then ['('] else [c]

/-- Embedding of getStartingX, including its self-call for the default
alignment (`right` for RTL paragraphs, else `left`). -/
def getStartingX (pageWidth leftMargin rightMargin currentLineWidth : ℚ)
    (isRTL : Bool) : Option Alignment → ℚ
  | some Alignment.left => leftMargin
  | some Alignment.right => pageWidth - rightMargin - currentLineWidth
  | some Alignment.center =>
    leftMargin + max 0 ((pageWidth - leftMargin - rightMargin - currentLineWidth) / 2)
  | none =>
    getStartingX pageWidth leftMargin rightMargin currentLineWidth isRTL
      (some (if isRTL then Alignment.right else Alignment.left))
  termination_by a => a.elim 1 fun _ => 0
  decreasing_by simp [Option.elim]

/-- Draw-call alphabet: page creation (`doc.addPage`) and glyph drawing
(`doc.text(word, x, y, { isOutputRtl })`).  Font-state calls (`setFont`,
`setFontSize`) mutate renderer state but draw nothing, so they are not
events. -/
inductive DrawEvent where
  | addPage : DrawEvent
  | text (s : String) (x y : ℚ) (isOutputRtl : Bool) : DrawEvent
  deriving DecidableEq, Repr

/-- The total width of a line as writeRichLine measures it: each word's width
(under its own weight) plus one space width per gap; an empty line measures 0. -/
def lineRenderWidth (wOf : RichWord → ℚ) (spaceWidth : ℚ) : List RichWord → ℚ
  | [] => 0
  | l => (l.map wOf).sum + ((l.length : ℚ) - 1) * spaceWidth

/-- The drawing walk of writeRichLine: emit each word at the running x, then
advance by the word width plus a space width (omitted after the last word). -/
def drawWordsGo (wOf : RichWord → ℚ) (spaceWidth y : ℚ) :
    List RichWord → ℚ → List DrawEvent
  | [], _ => []
  | w :: ws, x =>
    DrawEvent.text w.word x y w.isRtlLang ::
      drawWordsGo wOf spaceWidth y ws
        (x + wOf w + (if ws.isEmpty then 0 else spaceWidth))

/-- Embedding of writeRichLine.  `widthN` / `widthB` are `doc.getTextWidth`
under normal / bold weight; `hasFont` is the truthiness of the `font`
parameter (per-word `setFont` happens only when a font is given, so only then
do bold words measure with the bold width). -/
def writeRichLine (widthN widthB : String → ℚ) (hasFont : Bool)
    (line : List RichWord) (y : ℚ) (isRTL : Bool) (align : Option Alignment)
    (pageWidth leftMargin rightMargin : ℚ) : List DrawEvent :=
  let spaceWidth := widthN spaceStr
  let lineCopy := if isRTL then line.reverse else line
  let wOf := fun (w : RichWord) =>
    if hasFont && w.isBold then widthB w.word else widthN w.word
  let currentLineWidth := lineRenderWidth wOf spaceWidth lineCopy
  let startX := getStartingX pageWidth leftMargin rightMargin currentLineWidth
    isRTL align
  drawWordsGo wOf spaceWidth y lineCopy startX

/-- The renderer collaborator (jsPDF document), reduced to the queries the
core makes of it.  `widthAt fs` / `widthBoldAt fs` model `getTextWidth` after
`setFontSize fs`, under normal / bold weight; `fontSize` is the font size
before the paragraph call (used when no override is given). -/
structure DocModel where
  widthAt : ℚ → String → ℚ
  widthBoldAt : ℚ → String → ℚ
  fontSize : ℚ
  pageWidth : ℚ
  pageHeight : ℚ

/-- JavaScript `a || b` for optional numbers (`0` is falsy): the semantics of
`customLineHeight || fontSize * 0.5` and of `if (config.fontSize)`. -/
def jsOr : Option ℚ → ℚ → ℚ
  | none, b => b
  | some a, b => if a = 0 then b else a

/-- JavaScript truthiness of an optional string (`""` is falsy): the
semantics of `if (font)` in writeRichLine. -/
def jsTruthy : Option String → Bool
  | none => false
  | some s => decide (s ≠ emptyStr)

/-- Embedding of calculateLineMetrics.  `effFontSize` is `doc.getFontSize()`
after the entry point's `setupFont` call, i.e. the override if given (and
nonzero) else the document's font size. -/
def calculateLineMetrics (doc : DocModel) (effFontSize : ℚ)
    (customLineHeight : Option ℚ)
    (leftMargin rightMargin topMargin bottomMargin : ℚ) : LineMetrics :=
  { lineHeight := jsOr customLineHeight (effFontSize * lineHeightMultiplier)
    pageWidth := doc.pageWidth
    pageHeight := doc.pageHeight
    maxWidth := doc.pageWidth - leftMargin - rightMargin
    spaceWidth := doc.widthAt effFontSize spaceStr
    leftMargin := leftMargin
    rightMargin := rightMargin
    topMargin := topMargin
    bottomMargin := bottomMargin }

/-- The configuration bag of the two paragraph entry points (source:
ParagraphProcessingParams, minus the document). -/
structure ParagraphParams where
  fragments : List RichTextFragment
  currentY : ℚ
  customLineHeight : Option ℚ := none
  isRTL : Bool := false
  margin : Option ℚ := none
  leftMargin : Option ℚ := none
  rightMargin : Option ℚ := none
  topMargin : Option ℚ := none
  bottomMargin : Option ℚ := none
  align : Option Alignment := none
  fontSize : Option ℚ := none
  defaultFontSize : Option ℚ := none
  defaultFont : Option String := none

/-- Source: interface ParagraphMeasurementResult. -/
structure ParagraphMeasurementResult where
  lineHeight : ℚ
  lineCount : Nat
  currentY : ℚ
  deriving DecidableEq, Repr

/-- Embedding of processLineLayout: build the lines, then lay them out with
`doc.addPage` on page break and writeRichLine per line. -/
def processLineLayout (doc : DocModel) (effFontSize : ℚ) (hasFont : Bool)
    (words : List RichWord) (currentY : ℚ) (m : LineMetrics) (isRTL : Bool)
    (align : Option Alignment) : List DrawEvent × ℚ :=
  let w := doc.widthAt effFontSize
  let lines := buildRichLines w m.maxWidth words
  layoutLinesAcrossPages m [DrawEvent.addPage]
    (fun line y => writeRichLine w (doc.widthBoldAt effFontSize) hasFont line y
      isRTL align m.pageWidth m.leftMargin m.rightMargin)
    lines currentY

/-- Embedding of addRichParagraphAsync.  Returns the final cursor, the trace
of draw calls, and the memoization cache after the paragraph's
classifications.  (`resetFont` at the end only mutates renderer font state.) -/
def addRichParagraphAsync (doc : DocModel) (det : Option (String → Option String))
    (lir : String → Bool) (cache : List (String × Bool)) (ps : ParagraphParams) :
    ℚ × List DrawEvent × List (String × Bool) :=
  let effFontSize := jsOr ps.fontSize doc.fontSize
  let fallbackMargin := ps.margin.getD defaultMarginQ
  let effL := ps.leftMargin.getD fallbackMargin
  let effR := ps.rightMargin.getD fallbackMargin
  let effT := ps.topMargin.getD fallbackMargin
  let effB := ps.bottomMargin.getD fallbackMargin
  let m := calculateLineMetrics doc effFontSize ps.customLineHeight effL effR effT effB
  let pw := processFragmentsToWords det lir cache ps.fragments
  let processed := reverseLanguageSequences pw.1 ps.isRTL
  let r := processLineLayout doc effFontSize (jsTruthy ps.defaultFont) processed
    ps.currentY m ps.isRTL ps.align
  (r.2, r.1, pw.2)

/-- Embedding of measureRichParagraphAsync: identical pipeline, but the
pagination engine runs without callbacks (no draw calls, no pages added). -/
def measureRichParagraphAsync (doc : DocModel)
    (det : Option (String → Option String)) (lir : String → Bool)
    (cache : List (String × Bool)) (ps : ParagraphParams) :
    ParagraphMeasurementResult × List (String × Bool) :=
  let effFontSize := jsOr ps.fontSize doc.fontSize
  let fallbackMargin := ps.margin.getD defaultMarginQ
  let effL := ps.leftMargin.getD fallbackMargin
  let effR := ps.rightMargin.getD fallbackMargin
  let effT := ps.topMargin.getD fallbackMargin
  let effB := ps.bottomMargin.getD fallbackMargin
  let m := calculateLineMetrics doc effFontSize ps.customLineHeight effL effR effT effB
  let pw := processFragmentsToWords det lir cache ps.fragments
  let processed := reverseLanguageSequences pw.1 ps.isRTL
  let lines := buildRichLines (doc.widthAt effFontSize) m.maxWidth processed
  let r := layoutLinesAcrossPages m ([] : List DrawEvent) (fun _ _ => []) lines
    ps.currentY
  (⟨m.lineHeight, lines.length, r.2⟩, pw.2)

/-- Per-word widths accumulated by buildRichLines over a line
(`width (word ++ " ")` summed). -/
def lineWps (width : String → ℚ) (l : List RichWord) : ℚ :=
  (l.map (fun x => width (x.word ++ spaceStr))).sum

/-- The width estimate of a line named by claim C1: the sum of the words'
rendered widths plus one space width per gap. -/
def lineEstimate (width : String → ℚ) (l : List RichWord) : ℚ :=
  (l.map (fun x => width x.word)).sum + ((l.length : ℚ) - 1) * width spaceStr

/-- Extracts the line payload of a layout event (none for a page break). -/
def lineOf : LayoutEvent → Option (List RichWord)
  | LayoutEvent.line l _ => some l
  | LayoutEvent.pageBreak => none

/-- A Hebrew-script test word (the letter alef, U+05D0). -/
def hebrewAleph : String := "א"

/-- A plain test word used by witnesses. -/
def wordA : String := "abc"

/-- The sentinel as a string (a possible input of swapParentheses). -/
def markerStr : String := "TEMP_MARKER"

/-- A small parenthesised test string. -/
def parenTest : String := "(ab)"

/-- The tail of the sentinel after its first character. -/
def markerTail : List Char :=
  ['E', 'M', 'P', '_', 'M', 'A', 'R', 'K', 'E', 'R']

/-- A character-count width collaborator used by witnesses. -/
def wLenQ : String → ℚ := fun s => (s.length : ℚ)

/-- A small concrete renderer model used by witnesses. -/
def docW : DocModel := ⟨fun _ _ => 1, fun _ _ => 1, 10, 200, 100⟩

/-- A whitespace-only fragment used by witnesses. -/
def wsFrag : RichTextFragment := ⟨spaceStr, none⟩

/-- A whitespace-only paragraph configuration used by witnesses. -/
def psWs : ParagraphParams := { fragments := [wsFrag], currentY := 30 }

/-!
Theorems.  Each claim of the specification is settled below; supporting
lemmas precede the claim theorems that use them.
-/

/-- C2 counterexample: the alignment resolver of the source returns 75, not
85, for `pageWidth=200, leftMargin=20, rightMargin=20, lineWidth=50,
align=center`: `20 + max(0, (200-20-20-50)/2) = 75`. -/
theorem c2_alignment_counterexample :
    getStartingX 200 20 20 50 false (some Alignment.center) = 75 ∧
      (75 : ℚ) ≠ 85 := by
  constructor
  · simp only [getStartingX]
    norm_num [max_eq_right]
  · norm_num

/-- C2 (amended): the alignment resolver, called with pageWidth=200,
leftMargin=20, rightMargin=20, lineWidth=50, returns 75 for center (the
clamped half of the leftover content width added to the left margin), 130 for
right, and 20 for left, for either paragraph direction. -/
theorem c2_alignment_resolver (b : Bool) :
    getStartingX 200 20 20 50 b (some Alignment.center) = 75 ∧
      getStartingX 200 20 20 50 b (some Alignment.right) = 130 ∧
      getStartingX 200 20 20 50 b (some Alignment.left) = 20 := by
  refine ⟨?_, ?_, ?_⟩ <;> simp only [getStartingX] <;> norm_num [max_eq_right]

/-- C5 counterexample: a word consisting of the Hebrew letter alef (U+05D0,
inside the Hebrew block U+0590..U+05FF) is classified `false` by the fallback
path, so the fallback ranges do not cover the Hebrew script. -/
theorem c5_direction_fallback_counterexample :
    (isWordRtlAsync none (fun _ => false) [] hebrewAleph).result = false ∧
      ∃ c ∈ hebrewAleph.data, 0x590 ≤ c.toNat ∧ c.toNat ≤ 0x5FF := by
  exact ⟨by decide, ⟨'א', by decide, by decide⟩⟩

/-- C5 (amended): when the language-identification collaborator is
unavailable, the classifier returns true exactly for words containing a
character of the fixed Arabic-script ranges U+0600-U+06FF, U+0750-U+077F,
U+08A0-U+08FF, U+FB50-U+FDFF, U+FE70-U+FEFF (Hebrew is not covered), and
false for every other word. -/
theorem c5_direction_fallback (lir : String → Bool) (w : String) :
    (isWordRtlAsync none lir [] w).result = true ↔
      ∃ c ∈ w.data, isRtlCodepoint c = true := by
  simp only [isWordRtlAsync, List.lookup, rtlFallback]
  exact List.any_eq_true

/-- After any uncached classification the word is inserted at the front of the
cache, so looking it up finds exactly the returned boolean. -/
theorem lookup_insert_self (w : String) (r : Bool) (cache : List (String × Bool)) :
    List.lookup w ((w, r) :: cache) = some r := by
  simp [List.lookup]

/-- C6: the cache is consulted before classifying and populated on every
path: after any call the word maps to the returned boolean; a cached word is
answered from the cache with no detector call and no cache change; hence a
second classification of the same word performs no detector call, returns the
first call's result, and the two calls together invoke the detector at most
once. -/
theorem c6_direction_cache :
    (∀ (det : Option (String → Option String)) (lir : String → Bool)
        (cache : List (String × Bool)) (w : String),
      List.lookup w (isWordRtlAsync det lir cache w).cache =
        some (isWordRtlAsync det lir cache w).result) ∧
    (∀ (det : Option (String → Option String)) (lir : String → Bool)
        (cache : List (String × Bool)) (w : String) (b : Bool),
      List.lookup w cache = some b →
        (isWordRtlAsync det lir cache w).result = b ∧
        (isWordRtlAsync det lir cache w).cache = cache ∧
        (isWordRtlAsync det lir cache w).detectorCalls = 0) ∧
    (∀ (det : Option (String → Option String)) (lir : String → Bool)
        (cache : List (String × Bool)) (w : String),
      (isWordRtlAsync det lir (isWordRtlAsync det lir cache w).cache w).detectorCalls
          = 0 ∧
        (isWordRtlAsync det lir (isWordRtlAsync det lir cache w).cache w).result =
          (isWordRtlAsync det lir cache w).result ∧
        (isWordRtlAsync det lir cache w).detectorCalls ≤ 1) := by
  have hpop : ∀ (det : Option (String → Option String)) (lir : String → Bool)
      (cache : List (String × Bool)) (w : String),
      List.lookup w (isWordRtlAsync det lir cache w).cache =
        some (isWordRtlAsync det lir cache w).result := by
    intro det lir cache w
    unfold isWordRtlAsync
    cases hc : List.lookup w cache with
    | some b => simpa using hc
    | none =>
      cases det with
      | none => simp [lookup_insert_self]
      | some find =>
        cases hf : find w <;> simp [hf, lookup_insert_self]
  have hcached : ∀ (det : Option (String → Option String)) (lir : String → Bool)
      (cache : List (String × Bool)) (w : String) (b : Bool),
      List.lookup w cache = some b →
        (isWordRtlAsync det lir cache w).result = b ∧
        (isWordRtlAsync det lir cache w).cache = cache ∧
        (isWordRtlAsync det lir cache w).detectorCalls = 0 := by
    intro det lir cache w b hb
    unfold isWordRtlAsync
    rw [hb]
    exact ⟨rfl, rfl, rfl⟩
  refine ⟨hpop, hcached, ?_⟩
  intro det lir cache w
  obtain ⟨h1, h2, h3⟩ := hcached det lir (isWordRtlAsync det lir cache w).cache w
    (isWordRtlAsync det lir cache w).result (hpop det lir cache w)
  refine ⟨h3, h1, ?_⟩
  unfold isWordRtlAsync
  cases hc : List.lookup w cache with
  | some b => simp
  | none =>
    cases det with
    | none => simp
    | some find => cases hf : find w <;> simp [hf]

/-- C6 witness: with the word already cached as `true`, the call answers
`true` from the cache, leaves the cache unchanged and makes no detector
call. -/
theorem c6_direction_cache_witness :
    List.lookup wordA [(wordA, true)] = some true ∧
      (isWordRtlAsync none (fun _ => false) [(wordA, true)] wordA).result = true ∧
      (isWordRtlAsync none (fun _ => false) [(wordA, true)] wordA).cache =
        [(wordA, true)] ∧
      (isWordRtlAsync none (fun _ => false) [(wordA, true)] wordA).detectorCalls
        = 0 := by
  have h : List.lookup wordA [(wordA, true)] = some true := by
    simp [List.lookup]
  exact ⟨h, c6_direction_cache.2.1 none (fun _ => false) [(wordA, true)] wordA true h⟩

/-- On any nonempty (or empty) line list, the pagination loop instantiated
with singleton observation events is exactly the state machine of the claim. -/
theorem layoutGo_eq_claimMachine (m : LineMetrics) :
    ∀ (lines : List (List RichWord)) (y : ℚ),
      layoutGo m [LayoutEvent.pageBreak] (fun l yy => [LayoutEvent.line l yy])
        lines y = layoutClaimMachine m lines y := by
  intro lines
  induction lines with
  | nil => intro y; rfl
  | cons l ls ih =>
    intro y
    simp only [layoutGo, layoutClaimMachine, ih]
    split <;> simp

/-- The loop emits one line event per input line, in order: no line is ever
skipped or duplicated. -/
theorem layoutGo_no_skip (m : LineMetrics) :
    ∀ (lines : List (List RichWord)) (y : ℚ),
      (layoutGo m [LayoutEvent.pageBreak] (fun l yy => [LayoutEvent.line l yy])
          lines y).1.filterMap lineOf = lines := by
  intro lines
  induction lines with
  | nil => intro y; rfl
  | cons l ls ih =>
    intro y
    simp only [layoutGo]
    split <;> simp [lineOf, ih]

/-- C3 (amended): on every nonempty line list the pagination engine is
exactly the claimed state machine (cursor starts at startY; a line whose
cursor is past `pageHeight - bottomMargin` is preceded by a page break
resetting the cursor to `clamp(topMargin, 0, pageHeight - bottomMargin)`;
each line is emitted at the cursor, which then advances by lineHeight; the
final cursor is returned); the engine never skips a line; and in the concrete
scenario (lineHeight=10, margins 20, pageHeight=100, 7 lines from y=75) the
break happens exactly before the second line, the cursor resets to 20, and
the final cursor is 80.  (An empty line list instead returns
`startY + lineHeight`.) -/
theorem c3_pagination_engine :
    (∀ (m : LineMetrics) (lines : List (List RichWord)) (y : ℚ), lines ≠ [] →
      layoutLinesAcrossPages m [LayoutEvent.pageBreak]
          (fun l yy => [LayoutEvent.line l yy]) lines y =
        layoutClaimMachine m lines y) ∧
    (∀ (m : LineMetrics) (lines : List (List RichWord)) (y : ℚ),
      (layoutLinesAcrossPages m [LayoutEvent.pageBreak]
          (fun l yy => [LayoutEvent.line l yy]) lines y).1.filterMap lineOf =
        lines) ∧
    layoutLinesAcrossPages (⟨10, 200, 100, 160, 1, 20, 20, 20, 20⟩ : LineMetrics)
        [LayoutEvent.pageBreak] (fun l yy => [LayoutEvent.line l yy])
        (List.replicate 7 [dummyWord]) 75 =
      ([LayoutEvent.line [dummyWord] 75, LayoutEvent.pageBreak,
        LayoutEvent.line [dummyWord] 20, LayoutEvent.line [dummyWord] 30,
        LayoutEvent.line [dummyWord] 40, LayoutEvent.line [dummyWord] 50,
        LayoutEvent.line [dummyWord] 60, LayoutEvent.line [dummyWord] 70], 80) := by
  refine ⟨?_, ?_, ?_⟩
  · intro m lines y hne
    rw [layoutLinesAcrossPages, if_neg (by simpa using hne)]
    exact layoutGo_eq_claimMachine m lines y
  · intro m lines y
    cases lines with
    | nil => rfl
    | cons l ls =>
      rw [layoutLinesAcrossPages, if_neg (by simp)]
      exact layoutGo_no_skip m (l :: ls) y
  · norm_num [layoutLinesAcrossPages, layoutGo, List.replicate, min_def, max_def]

/-- C3 counterexample: on the empty line list the engine returns
`startY + lineHeight` (85 here), not the final cursor `startY` (75) of the
claimed per-line machine. -/
theorem c3_pagination_counterexample :
    (layoutLinesAcrossPages (⟨10, 200, 100, 160, 1, 20, 20, 20, 20⟩ : LineMetrics)
        [LayoutEvent.pageBreak] (fun l yy => [LayoutEvent.line l yy]) [] 75).2 =
      85 ∧ (85 : ℚ) ≠ 75 := by
  constructor
  · norm_num [layoutLinesAcrossPages]
  · norm_num

/-- C3 witness: the nonempty-lines equivalence applied to a one-line list. -/
theorem c3_pagination_witness :
    (([[dummyWord]] : List (List RichWord)) ≠ []) ∧
      layoutLinesAcrossPages (⟨10, 200, 100, 160, 1, 20, 20, 20, 20⟩ : LineMetrics)
          [LayoutEvent.pageBreak] (fun l yy => [LayoutEvent.line l yy])
          [[dummyWord]] 30 =
        layoutClaimMachine (⟨10, 200, 100, 160, 1, 20, 20, 20, 20⟩ : LineMetrics)
          [[dummyWord]] 30 := by
  have h : (([[dummyWord]] : List (List RichWord)) ≠ []) := by simp
  exact ⟨h, c3_pagination_engine.1 _ [[dummyWord]] 30 h⟩

/-- The final cursor of the pagination loop does not depend on the callbacks:
only the event traces differ. -/
theorem layoutGo_snd_ext {α β : Type} (m : LineMetrics) (pbA : List α)
    (olA : List RichWord → ℚ → List α) (pbB : List β)
    (olB : List RichWord → ℚ → List β) :
    ∀ (lines : List (List RichWord)) (y : ℚ),
      (layoutGo m pbA olA lines y).2 = (layoutGo m pbB olB lines y).2 := by
  intro lines
  induction lines with
  | nil => intro y; rfl
  | cons l ls ih =>
    intro y
    simp only [layoutGo]
    split <;> simp [ih]

/-- Callback independence of the final cursor, at the entry-point level. -/
theorem layout_snd_ext {α β : Type} (m : LineMetrics) (pbA : List α)
    (olA : List RichWord → ℚ → List α) (pbB : List β)
    (olB : List RichWord → ℚ → List β) (lines : List (List RichWord)) (y : ℚ) :
    (layoutLinesAcrossPages m pbA olA lines y).2 =
      (layoutLinesAcrossPages m pbB olB lines y).2 := by
  rw [layoutLinesAcrossPages, layoutLinesAcrossPages]
  split
  · rfl
  · exact layoutGo_snd_ext m pbA olA pbB olB lines y

/-- With trivial callbacks the pagination loop emits no events. -/
theorem layoutGo_noop_events (m : LineMetrics) :
    ∀ (lines : List (List RichWord)) (y : ℚ),
      (layoutGo m ([] : List DrawEvent) (fun _ _ => []) lines y).1 = [] := by
  intro lines
  induction lines with
  | nil => intro y; rfl
  | cons l ls ih =>
    intro y
    simp only [layoutGo]
    split <;> simp [ih]

/-- C7: for identical inputs the measurement entry point returns exactly the
final vertical position that the drawing entry point returns, leaves the
memoization cache in the same state, and its pagination pass (run without
callbacks) emits no draw events and adds no pages. -/
theorem c7_measure_matches_add (doc : DocModel)
    (det : Option (String → Option String)) (lir : String → Bool)
    (cache : List (String × Bool)) (ps : ParagraphParams) :
    (measureRichParagraphAsync doc det lir cache ps).1.currentY =
        (addRichParagraphAsync doc det lir cache ps).1 ∧
      (measureRichParagraphAsync doc det lir cache ps).2 =
        (addRichParagraphAsync doc det lir cache ps).2.2 ∧
      (∀ (m : LineMetrics) (lines : List (List RichWord)) (y : ℚ),
        (layoutLinesAcrossPages m ([] : List DrawEvent) (fun _ _ => []) lines y).1 =
          []) := by
  refine ⟨?_, rfl, ?_⟩
  · simp only [measureRichParagraphAsync, addRichParagraphAsync, processLineLayout]
    exact layout_snd_ext _ _ _ _ _ _ _
  · intro m lines y
    rw [layoutLinesAcrossPages]
    split
    · rfl
    · exact layoutGo_noop_events m lines y

/-- Splitting an all-whitespace character list yields no words. -/
theorem splitWordsGo_all_ws :
    ∀ (cs : List Char), (∀ c ∈ cs, isJsWhitespace c = true) →
      splitWordsGo [] cs = [] := by
  intro cs
  induction cs with
  | nil => intro _; rfl
  | cons c cs ih =>
    intro h
    have hc : isJsWhitespace c = true := h c (by simp)
    simp only [splitWordsGo, hc, if_pos, List.isEmpty_nil, if_true,
      List.nil_append]
    exact ih fun x hx => h x (by simp [hx])

/-- An all-whitespace fragment list produces no words and leaves the cache
untouched. -/
theorem processFragmentsToWords_all_ws (det : Option (String → Option String))
    (lir : String → Bool) :
    ∀ (fs : List RichTextFragment) (cache : List (String × Bool)),
      (∀ f ∈ fs, ∀ c ∈ f.text.data, isJsWhitespace c = true) →
      processFragmentsToWords det lir cache fs = ([], cache) := by
  intro fs
  induction fs with
  | nil => intro cache _; rfl
  | cons f fs ih =>
    intro cache h
    have hsplit : splitWords f.text.data = [] :=
      splitWordsGo_all_ws f.text.data (h f (by simp))
    simp only [processFragmentsToWords, splitWords] at hsplit ⊢
    rw [hsplit]
    simp only [processWordsGo]
    rw [ih cache fun g hg => h g (by simp [hg])]
    rfl

/-- C8: a paragraph whose fragments are all whitespace (the empty fragment
list included) advances the cursor by exactly one line height
(`customLineHeight || effectiveFontSize * 0.5`) and draws nothing. -/
theorem c8_whitespace_paragraph (doc : DocModel)
    (det : Option (String → Option String)) (lir : String → Bool)
    (cache : List (String × Bool)) (ps : ParagraphParams)
    (h : ∀ f ∈ ps.fragments, ∀ c ∈ f.text.data, isJsWhitespace c = true) :
    (addRichParagraphAsync doc det lir cache ps).1 =
        ps.currentY +
          jsOr ps.customLineHeight (jsOr ps.fontSize doc.fontSize * lineHeightMultiplier) ∧
      (addRichParagraphAsync doc det lir cache ps).2.1 = [] := by
  have hw : processFragmentsToWords det lir cache ps.fragments = ([], cache) :=
    processFragmentsToWords_all_ws det lir ps.fragments cache h
  simp only [addRichParagraphAsync, processLineLayout, hw,
    reverseLanguageSequences, buildRichLines, buildGo, calculateLineMetrics,
    layoutLinesAcrossPages, List.isEmpty_nil, if_true]
  exact ⟨trivial, trivial⟩

/-- C8 witness: a single space fragment starting at y = 30 with document font
size 10 returns 30 + 5 and draws nothing. -/
theorem c8_whitespace_paragraph_witness :
    (∀ f ∈ psWs.fragments, ∀ c ∈ f.text.data, isJsWhitespace c = true) ∧
      (addRichParagraphAsync docW none (fun _ => false) [] psWs).1 =
        psWs.currentY +
          jsOr psWs.customLineHeight
            (jsOr psWs.fontSize docW.fontSize * lineHeightMultiplier) ∧
      (addRichParagraphAsync docW none (fun _ => false) [] psWs).2.1 = [] := by
  have h : ∀ f ∈ psWs.fragments, ∀ c ∈ f.text.data, isJsWhitespace c = true := by
    decide
  exact ⟨h, c8_whitespace_paragraph docW none (fun _ => false) [] psWs h⟩

/-- Appending a word to a line adds its word-plus-space width. -/
theorem lineWps_append (width : String → ℚ) (l : List RichWord) (x : RichWord) :
    lineWps width (l ++ [x]) = lineWps width l + width (x.word ++ spaceStr) := by
  simp [lineWps]

/-- Invariant of the greedy packing loop: provided the accumulator equals the
current line's accumulated width and multi-word current lines fit, the loop
reassembles its input exactly, emits no empty line, and every emitted
multi-word line's accumulated width fits within maxWidth. -/
theorem buildGo_spec (width : String → ℚ) (maxWidth : ℚ) :
    ∀ (ws cur : List RichWord) (cw : ℚ), cw = lineWps width cur →
      (2 ≤ cur.length → cw ≤ maxWidth) →
      ((buildGo width maxWidth ws cur cw).flatten = cur ++ ws) ∧
        (∀ l ∈ buildGo width maxWidth ws cur cw, l ≠ []) ∧
        (∀ l ∈ buildGo width maxWidth ws cur cw, 2 ≤ l.length →
          lineWps width l ≤ maxWidth) := by
  intro ws
  induction ws with
  | nil =>
    intro cur cw hcw hfit
    cases cur with
    | nil => simp [buildGo]
    | cons c cs =>
      have hunfold : buildGo width maxWidth [] (c :: cs) cw = [c :: cs] := by
        simp [buildGo]
      rw [hunfold]
      refine ⟨by simp, ?_, ?_⟩
      · intro l hl
        rw [List.mem_singleton] at hl
        subst hl
        simp
      · intro l hl hlen
        rw [List.mem_singleton] at hl
        subst hl
        exact hcw ▸ hfit hlen
  | cons w ws ih =>
    intro cur cw hcw hfit
    by_cases hcond : cur ≠ [] ∧ cw + width (w.word ++ spaceStr) > maxWidth
    · have hunfold : buildGo width maxWidth (w :: ws) cur cw =
          cur :: buildGo width maxWidth ws [w] (width (w.word ++ spaceStr)) := by
        simp only [buildGo, if_pos hcond]
      have hrec := ih [w] (width (w.word ++ spaceStr)) (by simp [lineWps]) (by simp)
      rw [hunfold]
      refine ⟨?_, ?_, ?_⟩
      · rw [List.flatten_cons, hrec.1]
        simp
      · intro l hl
        rcases List.mem_cons.mp hl with rfl | hl
        · exact hcond.1
        · exact hrec.2.1 l hl
      · intro l hl hlen
        rcases List.mem_cons.mp hl with rfl | hl
        · exact hcw ▸ hfit hlen
        · exact hrec.2.2 l hl hlen
    · have hunfold : buildGo width maxWidth (w :: ws) cur cw =
          buildGo width maxWidth ws (cur ++ [w]) (cw + width (w.word ++ spaceStr)) := by
        simp only [buildGo, if_neg hcond]
      have hfit2 : 2 ≤ (cur ++ [w]).length →
          cw + width (w.word ++ spaceStr) ≤ maxWidth := by
        intro hlen
        rcases Classical.em (cur = []) with hnil | hne
        · subst hnil
          simp at hlen
        · push_neg at hcond
          exact hcond hne
      have hrec := ih (cur ++ [w]) (cw + width (w.word ++ spaceStr))
        (by rw [hcw, lineWps_append]) hfit2
      rw [hunfold]
      refine ⟨?_, hrec.2.1, hrec.2.2⟩
      rw [hrec.1]
      simp

/-- The accumulated width of a line is the sum of its words' widths plus one
space width per word, whenever measuring a word-plus-space splits into word
width plus space width. -/
theorem lineWps_eq (width : String → ℚ)
    (hadd : ∀ s : String, width (s ++ spaceStr) = width s + width spaceStr) :
    ∀ (l : List RichWord),
      lineWps width l =
        (l.map fun x => width x.word).sum + (l.length : ℚ) * width spaceStr := by
  intro l
  induction l with
  | nil => simp [lineWps]
  | cons x xs ih =>
    simp only [lineWps, List.map_cons, List.sum_cons, hadd, List.length_cons] at *
    push_cast
    linarith

/-- C1: the Line Builder's output lines, concatenated in order, reconstruct
the input word sequence exactly (so no word is dropped, duplicated, or
split); no produced line is empty; and every line of two or more words has a
width estimate (word widths plus one space width per gap) within maxWidth —
equivalently, a line exceeding maxWidth holds exactly one (over-wide,
unsplit) word.  Hypotheses: the width collaborator measures word-plus-space
additively, and a space has nonnegative width. -/
theorem c1_line_builder (width : String → ℚ) (maxWidth : ℚ)
    (words : List RichWord)
    (hadd : ∀ s : String, width (s ++ spaceStr) = width s + width spaceStr)
    (hsp : 0 ≤ width spaceStr) :
    ((buildRichLines width maxWidth words).flatten = words) ∧
      (∀ l ∈ buildRichLines width maxWidth words, l ≠ []) ∧
      (∀ l ∈ buildRichLines width maxWidth words, 2 ≤ l.length →
        lineEstimate width l ≤ maxWidth) := by
  have hspec := buildGo_spec width maxWidth words [] 0 (by simp [lineWps]) (by simp)
  refine ⟨by simpa [buildRichLines] using hspec.1, hspec.2.1, ?_⟩
  intro l hl hlen
  have hwps := hspec.2.2 l hl hlen
  have heq := lineWps_eq width hadd l
  have : lineEstimate width l = lineWps width l - width spaceStr := by
    rw [heq, lineEstimate]
    ring
  rw [this]
  linarith

/-- C1 witness: with the character-count width collaborator the hypotheses
hold, and packing a single word into width 100 yields that word back. -/
theorem c1_line_builder_witness :
    (∀ s : String, wLenQ (s ++ spaceStr) = wLenQ s + wLenQ spaceStr) ∧
      (0 ≤ wLenQ spaceStr) ∧
      ((buildRichLines wLenQ 100 [dummyWord]).flatten = [dummyWord]) := by
  have hadd : ∀ s : String, wLenQ (s ++ spaceStr) = wLenQ s + wLenQ spaceStr := by
    intro s
    simp [wLenQ, String.length_append]
  have hsp : 0 ≤ wLenQ spaceStr := by norm_num [wLenQ, spaceStr]
  exact ⟨hadd, hsp, (c1_line_builder wLenQ 100 [dummyWord] hadd hsp).1⟩

/-- The run flush of the source reverses exactly when the run's flag opposes
the paragraph direction. -/
theorem flushRun_eq_procRun (b t : Bool) (cur : List RichWord) (_hne : cur ≠ [])
    (hh : runHead cur = t) : flushRun b t cur = procRun b cur := by
  rw [flushRun, procRun, hh]
  cases b <;> cases t <;> simp [shouldReverse]

/-- Appending on the right does not change a nonempty list's head. -/
theorem runHead_append (cur : List RichWord) (w : RichWord) (h : cur ≠ []) :
    runHead (cur ++ [w]) = runHead cur := by
  cases cur with
  | nil => exact absurd rfl h
  | cons c cs => rfl

/-- A nonempty uniform run's head flag is its common flag. -/
theorem runHead_of_uniform (r : List RichWord) (t : Bool) (_hne : r ≠ [])
    (h : ∀ w ∈ r, w.isRtlLang = t) : runHead r = t := by
  cases r with
  | nil => exact absurd rfl _hne
  | cons c cs => exact h c (by simp)

/-- The loop of reverseLanguageSequences equals run partitioning followed by
per-run processing. -/
theorem rlsGo_eq_runs (b : Bool) :
    ∀ (ws cur : List RichWord) (t : Bool), cur ≠ [] → runHead cur = t →
      rlsGo b cur t ws = ((runsGo cur t ws).map (procRun b)).flatten := by
  intro ws
  induction ws with
  | nil =>
    intro cur t hne hh
    simp [rlsGo, runsGo, flushRun_eq_procRun b t cur hne hh]
  | cons w ws ih =>
    intro cur t hne hh
    by_cases hw : w.isRtlLang = t
    · simp only [rlsGo, runsGo, if_pos hw]
      exact ih (cur ++ [w]) t (by simp) (by rw [runHead_append cur w hne, hh])
    · simp only [rlsGo, runsGo, if_neg hw, List.map_cons, List.flatten_cons]
      rw [flushRun_eq_procRun b t cur hne hh,
        ih [w] w.isRtlLang (by simp) (by rfl)]

/-- reverseLanguageSequences is: partition into maximal same-flag runs,
reverse exactly the runs opposing the paragraph direction, concatenate. -/
theorem reverseLanguageSequences_eq_runs (p : List RichWord) (b : Bool) :
    reverseLanguageSequences p b = ((runs p).map (procRun b)).flatten := by
  cases p with
  | nil => rfl
  | cons w ws =>
    exact rlsGo_eq_runs b ws [w] w.isRtlLang (by simp) (by rfl)

/-- The run partition concatenates back to its input. -/
theorem runsGo_flatten :
    ∀ (ws cur : List RichWord) (t : Bool), (runsGo cur t ws).flatten = cur ++ ws := by
  intro ws
  induction ws with
  | nil => intro cur t; simp [runsGo]
  | cons w ws ih =>
    intro cur t
    by_cases hw : w.isRtlLang = t
    · rw [runsGo, if_pos hw, ih]
      simp
    · rw [runsGo, if_neg hw, List.flatten_cons, ih]
      rfl

/-- The run partition is a partition: its concatenation is the input. -/
theorem runs_flatten (p : List RichWord) : (runs p).flatten = p := by
  cases p with
  | nil => rfl
  | cons w ws => rw [runs, runsGo_flatten]; rfl

/-- A uniform remainder extends the open run to a single final run. -/
theorem runsGo_uniform :
    ∀ (ws cur : List RichWord) (t : Bool), (∀ w ∈ ws, w.isRtlLang = t) →
      runsGo cur t ws = [cur ++ ws] := by
  intro ws
  induction ws with
  | nil => intro cur t _; simp [runsGo]
  | cons w ws ih =>
    intro cur t h
    rw [runsGo, if_pos (h w (by simp)), ih (cur ++ [w]) t fun x hx => h x (by simp [hx])]
    simp

/-- The run partition loop never returns an empty run list. -/
theorem runsGo_ne_nil :
    ∀ (ws cur : List RichWord) (t : Bool), runsGo cur t ws ≠ [] := by
  intro ws
  induction ws with
  | nil => intro cur t; simp [runsGo]
  | cons w ws ih =>
    intro cur t
    by_cases hw : w.isRtlLang = t
    · rw [runsGo, if_pos hw]; exact ih (cur ++ [w]) t
    · rw [runsGo, if_neg hw]; simp

/-- The first run produced by the loop starts with the open run's head. -/
theorem runsGo_headD :
    ∀ (ws cur : List RichWord) (t : Bool), cur ≠ [] →
      ((runsGo cur t ws).headD []).headD dummyWord = cur.headD dummyWord := by
  intro ws
  induction ws with
  | nil => intro cur t _; simp [runsGo]
  | cons w ws ih =>
    intro cur t hne
    by_cases hw : w.isRtlLang = t
    · rw [runsGo, if_pos hw, ih (cur ++ [w]) t (by simp)]
      cases cur with
      | nil => exact absurd rfl hne
      | cons c cs => rfl
    · rw [runsGo, if_neg hw]
      rfl

/-- The run partition loop produces well-formed (nonempty, uniform, maximal)
runs whenever its open run is nonempty and uniform. -/
theorem runsGo_wf :
    ∀ (ws cur : List RichWord) (t : Bool), cur ≠ [] →
      (∀ w ∈ cur, w.isRtlLang = t) → RunsWf (runsGo cur t ws) := by
  intro ws
  induction ws with
  | nil =>
    intro cur t hne hcur
    rw [runsGo]
    constructor
    · intro r hr
      rw [List.mem_singleton] at hr
      subst hr
      exact ⟨hne, by rw [runHead_of_uniform _ t hne hcur]; exact hcur⟩
    · simp
  | cons w ws ih =>
    intro cur t hne hcur
    by_cases hw : w.isRtlLang = t
    · rw [runsGo, if_pos hw]
      refine ih (cur ++ [w]) t (by simp) ?_
      intro x hx
      rcases List.mem_append.mp hx with hx | hx
      · exact hcur x hx
      · rw [List.mem_singleton] at hx; subst hx; exact hw
    · rw [runsGo, if_neg hw]
      have hrest := ih [w] w.isRtlLang (by simp) (by simp)
      constructor
      · intro r hr
        rcases List.mem_cons.mp hr with rfl | hr
        · exact ⟨hne, by rw [runHead_of_uniform r t hne hcur]; exact hcur⟩
        · exact hrest.1 r hr
      · rw [List.chain'_cons']
        refine ⟨?_, hrest.2⟩
        intro r0 hr0
        have hne' := runsGo_ne_nil ws [w] w.isRtlLang
        have hhead : (runsGo [w] w.isRtlLang ws).headD [] = r0 := by
          rw [List.headD_eq_head?, hr0]
          rfl
        have h0 : r0.headD dummyWord = w := by
          rw [← hhead, runsGo_headD ws [w] w.isRtlLang (by simp)]
          rfl
        rw [runHead_of_uniform cur t hne hcur]
        rw [runHead, h0]
        exact fun heq => hw heq.symm

/-- The run partition of any word sequence is well-formed. -/
theorem runs_wf (p : List RichWord) : RunsWf (runs p) := by
  cases p with
  | nil => exact ⟨by simp [runs], by simp [runs]⟩
  | cons w ws => exact runsGo_wf ws [w] w.isRtlLang (by simp) (by simp)

/-- Processing a run permutes it. -/
theorem procRun_perm (b : Bool) (r : List RichWord) : (procRun b r).Perm r := by
  rw [procRun]
  split
  · exact r.reverse_perm
  · exact List.Perm.refl r

/-- Processing preserves nonemptiness. -/
theorem procRun_ne_nil (b : Bool) (r : List RichWord) (h : r ≠ []) :
    procRun b r ≠ [] := by
  rw [procRun]
  split
  · simpa
  · exact h

/-- Processing a nonempty uniform run preserves its flag. -/
theorem procRun_runHead (b : Bool) (r : List RichWord) (hne : r ≠ [])
    (hu : ∀ w ∈ r, w.isRtlLang = runHead r) :
    runHead (procRun b r) = runHead r := by
  rw [procRun]
  split
  · exact runHead_of_uniform r.reverse (runHead r) (by simpa)
      fun w hw => hu w (List.mem_reverse.mp hw)
  · rfl

/-- Processing a nonempty uniform run keeps it uniform. -/
theorem procRun_uniform (b : Bool) (r : List RichWord) (hne : r ≠ [])
    (hu : ∀ w ∈ r, w.isRtlLang = runHead r) :
    ∀ w ∈ procRun b r, w.isRtlLang = runHead (procRun b r) := by
  rw [procRun_runHead b r hne hu]
  intro w hw
  exact hu w ((procRun_perm b r).subset hw)

/-- Processing twice with the same paragraph direction is the identity on a
nonempty uniform run. -/
theorem procRun_procRun (b : Bool) (r : List RichWord) (hne : r ≠ [])
    (hu : ∀ w ∈ r, w.isRtlLang = runHead r) :
    procRun b (procRun b r) = r := by
  by_cases h : runHead r ≠ b
  · have h1 : procRun b r = r.reverse := by rw [procRun, if_pos h]
    have h2 : runHead r.reverse = runHead r :=
      runHead_of_uniform r.reverse (runHead r) (by simpa)
        fun w hw => hu w (List.mem_reverse.mp hw)
    rw [h1, procRun, h2, if_pos h, List.reverse_reverse]
  · have h1 : procRun b r = r := by rw [procRun, if_neg h]
    rw [h1, h1]

/-- Adjacent-run distinctness survives per-run processing. -/
theorem chain'_map_procRun (b : Bool) :
    ∀ (rs : List (List RichWord)),
      (∀ r ∈ rs, r ≠ [] ∧ ∀ w ∈ r, w.isRtlLang = runHead r) →
      List.Chain' (fun a c => runHead a ≠ runHead c) rs →
      List.Chain' (fun a c => runHead a ≠ runHead c) (rs.map (procRun b)) := by
  intro rs
  induction rs with
  | nil => intro _ _; simp
  | cons r rs ih =>
    intro h1 h2
    rw [List.map_cons, List.chain'_cons']
    rw [List.chain'_cons'] at h2
    refine ⟨?_, ih (fun x hx => h1 x (by simp [hx])) h2.2⟩
    intro b0 hb0
    rw [List.head?_map] at hb0
    rcases Option.map_eq_some'.mp hb0 with ⟨r1, hr1, rfl⟩
    obtain ⟨hner, hur⟩ := h1 r (by simp)
    have hmem : r1 ∈ rs := List.mem_of_mem_head? (Option.mem_def.mpr hr1)
    obtain ⟨hner1, hur1⟩ := h1 r1 (by simp [hmem])
    rw [procRun_runHead b r hner hur, procRun_runHead b r1 hner1 hur1]
    exact h2.1 r1 (Option.mem_def.mpr hr1)

/-- Per-run processing preserves well-formedness of a run list. -/
theorem RunsWf_map (b : Bool) (rs : List (List RichWord)) (h : RunsWf rs) :
    RunsWf (rs.map (procRun b)) := by
  obtain ⟨h1, h2⟩ := h
  constructor
  · intro r hr
    rcases List.mem_map.mp hr with ⟨r0, hr0, rfl⟩
    obtain ⟨hne, hu⟩ := h1 r0 hr0
    exact ⟨procRun_ne_nil b r0 hne, procRun_uniform b r0 hne hu⟩
  · exact chain'_map_procRun b rs h1 h2

/-- Scanning a uniform stretch followed by a flag change closes the run at
the change. -/
theorem runsGo_append_split :
    ∀ (ws cur : List RichWord) (t : Bool) (w' : RichWord) (rest' : List RichWord),
      (∀ w ∈ ws, w.isRtlLang = t) → w'.isRtlLang ≠ t →
      runsGo cur t (ws ++ w' :: rest') =
        (cur ++ ws) :: runsGo [w'] w'.isRtlLang rest' := by
  intro ws
  induction ws with
  | nil =>
    intro cur t w' rest' _ hw'
    rw [List.nil_append, runsGo, if_neg hw']
    simp
  | cons x ws ih =>
    intro cur t w' rest' h hw'
    rw [List.cons_append, runsGo, if_pos (h x (by simp)),
      ih (cur ++ [x]) t w' rest' (fun w hw => h w (by simp [hw])) hw']
    simp

/-- A well-formed run list is recovered exactly by re-partitioning its
concatenation (runs are maximal). -/
theorem runs_flatten_of_wf :
    ∀ (rs : List (List RichWord)), RunsWf rs → runs rs.flatten = rs := by
  intro rs
  induction rs with
  | nil => intro _; rfl
  | cons r rs ih =>
    intro h
    obtain ⟨h1, h2⟩ := h
    obtain ⟨hne, hu⟩ := h1 r (by simp)
    obtain ⟨c, cs, rfl⟩ : ∃ c cs, r = c :: cs := by
      cases r with
      | nil => exact absurd rfl hne
      | cons c cs => exact ⟨c, cs, rfl⟩
    have hcs : ∀ w ∈ cs, w.isRtlLang = c.isRtlLang := by
      intro w hw
      exact hu w (by simp [hw])
    cases rs with
    | nil =>
      rw [List.flatten_cons, List.flatten_nil, List.append_nil, runs,
        runsGo_uniform cs [c] c.isRtlLang hcs]
      rfl
    | cons s rs' =>
      obtain ⟨hnes, hus⟩ := h1 s (by simp)
      obtain ⟨d, ds, rfl⟩ : ∃ d ds, s = d :: ds := by
        cases s with
        | nil => exact absurd rfl hnes
        | cons d ds => exact ⟨d, ds, rfl⟩
      rw [List.chain'_cons'] at h2
      have hdc : d.isRtlLang ≠ c.isRtlLang := by
        intro heq
        exact h2.1 (d :: ds) rfl (by simp [runHead, heq])
      have hrec : runs ((d :: ds) :: rs').flatten = (d :: ds) :: rs' :=
        ih ⟨fun x hx => h1 x (by simp [hx]), h2.2⟩
      rw [List.flatten_cons]
      have hshape : (c :: cs) ++ ((d :: ds) :: rs').flatten =
          c :: (cs ++ (d :: (ds ++ rs'.flatten))) := by
        simp
      rw [hshape, runs, runsGo_append_split cs [c] c.isRtlLang d
        (ds ++ rs'.flatten) hcs hdc]
      rw [List.flatten_cons, List.cons_append, runs] at hrec
      rw [hrec]
      rfl

/-- Per-run processing permutes the concatenation. -/
theorem flatten_map_procRun_perm (b : Bool) :
    ∀ (rs : List (List RichWord)),
      ((rs.map (procRun b)).flatten).Perm rs.flatten := by
  intro rs
  induction rs with
  | nil => rfl
  | cons r rs ih =>
    rw [List.map_cons, List.flatten_cons, List.flatten_cons]
    exact (procRun_perm b r).append ih

/-- C4: the Sequence Reorderer partitions its input into maximal runs of
consecutive words sharing the same isRtl flag, reverses exactly the runs whose
direction opposes the paragraph direction, leaves the others unchanged, and
concatenates the processed runs in original order; the run partition is a
well-formed partition (nonempty uniform runs, adjacent runs of different
flags, concatenating back to the input); a uniform sequence matching the
paragraph direction is unchanged, a uniform opposite-direction sequence is
fully reversed, and empty input yields empty output. -/
theorem c4_sequence_reorderer :
    (∀ (p : List RichWord) (b : Bool),
      reverseLanguageSequences p b = ((runs p).map (procRun b)).flatten) ∧
    (∀ p : List RichWord, (runs p).flatten = p) ∧
    (∀ p : List RichWord, RunsWf (runs p)) ∧
    (∀ (p : List RichWord) (b : Bool), (∀ w ∈ p, w.isRtlLang = b) →
      reverseLanguageSequences p b = p) ∧
    (∀ (p : List RichWord) (b : Bool), (∀ w ∈ p, w.isRtlLang = !b) →
      reverseLanguageSequences p b = p.reverse) ∧
    (∀ b : Bool, reverseLanguageSequences [] b = []) := by
  have huni : ∀ (p : List RichWord) (t : Bool), p ≠ [] →
      (∀ w ∈ p, w.isRtlLang = t) → runs p = [p] := by
    intro p t hne h
    cases p with
    | nil => exact absurd rfl hne
    | cons w ws =>
      rw [runs, runsGo_uniform ws [w] w.isRtlLang
        fun x hx => (h x (by simp [hx])).trans (h w (by simp)).symm]
      rfl
  refine ⟨reverseLanguageSequences_eq_runs, runs_flatten, runs_wf, ?_, ?_, fun b => rfl⟩
  · intro p b h
    cases hp : p with
    | nil => rfl
    | cons w ws =>
      rw [← hp, reverseLanguageSequences_eq_runs,
        huni p b (by rw [hp]; exact List.cons_ne_nil w ws) h]
      have hr : procRun b p = p := by
        rw [procRun, if_neg]
        rw [runHead_of_uniform p b (by rw [hp]; exact List.cons_ne_nil w ws) h]
        simp
      rw [List.map_cons, List.map_nil, hr, List.flatten_cons]
      simp
  · intro p b h
    cases hp : p with
    | nil => rfl
    | cons w ws =>
      rw [← hp, reverseLanguageSequences_eq_runs,
        huni p (!b) (by rw [hp]; exact List.cons_ne_nil w ws) h]
      have hr : procRun b p = p.reverse := by
        rw [procRun, if_pos]
        rw [runHead_of_uniform p (!b) (by rw [hp]; exact List.cons_ne_nil w ws) h]
        cases b <;> simp
      rw [List.map_cons, List.map_nil, hr, List.flatten_cons]
      simp

/-- C4 witness: a uniform RTL pair in an RTL paragraph is returned
unchanged. -/
theorem c4_sequence_reorderer_witness :
    (∀ w ∈ [(⟨wordA, false, true⟩ : RichWord), ⟨wordA, true, true⟩],
      w.isRtlLang = true) ∧
      reverseLanguageSequences
          [(⟨wordA, false, true⟩ : RichWord), ⟨wordA, true, true⟩] true =
        [(⟨wordA, false, true⟩ : RichWord), ⟨wordA, true, true⟩] := by
  have h : ∀ w ∈ [(⟨wordA, false, true⟩ : RichWord), ⟨wordA, true, true⟩],
      w.isRtlLang = true := by
    intro w hw
    rcases List.mem_cons.mp hw with rfl | hw
    · rfl
    · rcases List.mem_cons.mp hw with rfl | hw
      · rfl
      · simp at hw
  exact ⟨h, c4_sequence_reorderer.2.2.2.1 _ true h⟩

/-- C10: the Sequence Reorderer is an involution — applying it twice with the
same paragraph direction restores the input — and a single application
permutes its input (hence preserves its length and word multiset). -/
theorem c10_reorderer_involution (p : List RichWord) (b : Bool) :
    reverseLanguageSequences (reverseLanguageSequences p b) b = p ∧
      (reverseLanguageSequences p b).Perm p ∧
      (reverseLanguageSequences p b).length = p.length := by
  have hperm : (reverseLanguageSequences p b).Perm p := by
    rw [reverseLanguageSequences_eq_runs]
    exact (flatten_map_procRun_perm b (runs p)).trans
      (by rw [runs_flatten])
  refine ⟨?_, hperm, hperm.length_eq⟩
  rw [reverseLanguageSequences_eq_runs p b, reverseLanguageSequences_eq_runs,
    runs_flatten_of_wf ((runs p).map (procRun b)) (RunsWf_map b (runs p) (runs_wf p)),
    List.map_map]
  have hcongr : (runs p).map (procRun b ∘ procRun b) = (runs p).map id := by
    apply List.map_congr_left
    intro r hr
    obtain ⟨hne, hu⟩ := (runs_wf p).1 r hr
    exact procRun_procRun b r hne hu
  rw [hcongr, List.map_id, runs_flatten]

/-- Replacement on the empty string is empty. -/
theorem replaceSeq_nil (pat rep : List Char) : replaceSeq pat rep [] = [] := by
  rw [replaceSeq]

/-- Replacement step when the pattern matches at the head. -/
theorem replaceSeq_cons_pos (pat rep : List Char) (c : Char) (cs : List Char)
    (h1 : pat ≠ []) (h2 : pat.isPrefixOf (c :: cs) = true) :
    replaceSeq pat rep (c :: cs) =
      rep ++ replaceSeq pat rep (cs.drop (pat.length - 1)) := by
  rw [replaceSeq, if_pos ⟨h1, h2⟩]

/-- Replacement step when the pattern does not match at the head. -/
theorem replaceSeq_cons_neg (pat rep : List Char) (c : Char) (cs : List Char)
    (h : ¬ (pat.isPrefixOf (c :: cs) = true)) :
    replaceSeq pat rep (c :: cs) = c :: replaceSeq pat rep cs := by
  rw [replaceSeq, if_neg fun hc => h hc.2]

/-- One step of single-character replacement. -/
theorem replaceSeq_one_cons (c : Char) (rep : List Char) (x : Char)
    (s : List Char) :
    replaceSeq [c] rep (x :: s) =
      (if x = c then rep else [x]) ++ replaceSeq [c] rep s := by
  by_cases h : x = c
  · rw [if_pos h, replaceSeq_cons_pos [c] rep x s (by simp)
      (by simp [List.isPrefixOf, h])]
    simp
  · have hc : ¬ ([c].isPrefixOf (x :: s) = true) := by
      intro hcc
      rw [List.isPrefixOf_iff_prefix] at hcc
      exact h ((List.cons_prefix_cons.mp hcc).1.symm)
    rw [if_neg h, replaceSeq_cons_neg [c] rep x s hc]
    rfl

/-- Single-character replacement is character-wise substitution. -/
theorem replaceSeq_one_eq (c : Char) (rep : List Char) :
    ∀ s : List Char,
      replaceSeq [c] rep s =
        (s.map fun x => if x = c then rep else [x]).flatten := by
  intro s
  induction s with
  | nil => rw [replaceSeq_nil]; rfl
  | cons x s' ih =>
    rw [replaceSeq_one_cons, ih, List.map_cons, List.flatten_cons]

/-- Single-character replacement distributes over concatenation. -/
theorem replaceSeq_one_append (c : Char) (rep : List Char) (a b : List Char) :
    replaceSeq [c] rep (a ++ b) =
      replaceSeq [c] rep a ++ replaceSeq [c] rep b := by
  rw [replaceSeq_one_eq, replaceSeq_one_eq, replaceSeq_one_eq,
    List.map_append, List.flatten_append]

/-- After the first two passes of swapParentheses, each input character has
contributed its block: the sentinel for an opening parenthesis, an opening
parenthesis for a closing one, itself otherwise. -/
theorem step12_eq :
    ∀ s : List Char,
      replaceSeq [')'] ['('] (replaceSeq ['('] markerChars s) =
        (s.map gBlock).flatten := by
  intro s
  induction s with
  | nil => rw [replaceSeq_nil, replaceSeq_nil]; rfl
  | cons x s' ih =>
    rw [replaceSeq_one_cons, replaceSeq_one_append, ih, List.map_cons,
      List.flatten_cons]
    congr 1
    by_cases hx : x = '('
    · subst hx
      rw [if_pos rfl]
      have h1 : replaceSeq [')'] ['('] markerChars =
          (markerChars.map fun y => if y = ')' then ['('] else [y]).flatten :=
        replaceSeq_one_eq _ _ _
      rw [h1]
      rfl
    · rw [if_neg hx]
      by_cases hx2 : x = ')'
      · subst hx2
        rw [replaceSeq_one_cons, replaceSeq_nil, if_pos rfl]
        rfl
      · rw [replaceSeq_one_cons, replaceSeq_nil, if_neg hx2]
        simp [gBlock, hx, hx2]

/-- No character of the sentinel is a parenthesis. -/
theorem markerChars_no_paren : ∀ x ∈ markerChars, x ≠ '(' ∧ x ≠ ')' := by
  decide

/-- The sentinel has no nontrivial border: no proper suffix of it is one of
its prefixes. -/
theorem markerChars_border_free :
    ∀ k, 1 ≤ k → k ≤ 10 → markerChars.drop k ≠ markerChars.take (11 - k) := by
  decide

/-- If a nonempty proper suffix of the sentinel is a prefix of the
block-expanded text, then it is a prefix of the original text: it can involve
no block boundary (the sentinel is border-free and contains no
parenthesis). -/
theorem marker_tail_from_text :
    ∀ (s t : List Char), t ≠ [] → (∃ u, u ≠ [] ∧ u ++ t = markerChars) →
      t.isPrefixOf ((s.map gBlock).flatten) = true → t.isPrefixOf s = true := by
  intro s
  induction s with
  | nil =>
    intro t hne hsuf hpre
    exfalso
    cases t with
    | nil => exact hne rfl
    | cons m t' => simp [List.isPrefixOf] at hpre
  | cons c s' ih =>
    intro t hne hsuf hpre
    obtain ⟨m, t', rfl⟩ : ∃ m t', t = m :: t' := by
      cases t with
      | nil => exact absurd rfl hne
      | cons m t' => exact ⟨m, t', rfl⟩
    obtain ⟨u, hu, hut⟩ := hsuf
    have hmem : m ∈ markerChars := by rw [← hut]; simp
    obtain ⟨hm1, hm2⟩ := markerChars_no_paren m hmem
    have hlen : u.length + (m :: t').length = 11 := by
      have h := congrArg List.length hut
      simpa [markerChars] using h
    by_cases hc : c = '('
    · subst hc
      exfalso
      rw [List.map_cons, List.flatten_cons] at hpre
      have hgb : gBlock '(' = markerChars := by simp [gBlock]
      rw [hgb] at hpre
      have hml : markerChars.length = 11 := rfl
      have hlen2 : (m :: t').length ≤ markerChars.length := by omega
      have hpre2 : m :: t' <+: markerChars := by
        rw [List.isPrefixOf_iff_prefix] at hpre
        exact List.prefix_of_prefix_length_le hpre
          (List.prefix_append markerChars _) hlen2
      have htake : m :: t' = markerChars.take (m :: t').length :=
        List.prefix_iff_eq_take.mp hpre2
      have hdrop : m :: t' = markerChars.drop u.length := by
        rw [← hut, List.drop_left]
      have hk1 : 1 ≤ u.length := by
        cases u with
        | nil => exact absurd rfl hu
        | cons a as => simp
      have hk2 : u.length ≤ 10 := by
        have : 1 ≤ (m :: t').length := by simp
        omega
      have h11 : (m :: t').length = 11 - u.length := by omega
      exact markerChars_border_free u.length hk1 hk2
        (hdrop.symm.trans (htake.trans (by rw [h11])))
    · by_cases hc2 : c = ')'
      · subst hc2
        exfalso
        rw [List.map_cons, List.flatten_cons] at hpre
        have hgb : gBlock ')' = ['('] := by simp [gBlock]
        rw [hgb] at hpre
        simp only [List.singleton_append, List.isPrefixOf, Bool.and_eq_true,
          beq_iff_eq] at hpre
        exact hm1 hpre.1
      · rw [List.map_cons, List.flatten_cons] at hpre
        have hgb : gBlock c = [c] := by simp [gBlock, hc, hc2]
        rw [hgb, List.singleton_append] at hpre
        simp only [List.isPrefixOf, Bool.and_eq_true, beq_iff_eq] at hpre
        obtain ⟨rfl, hpre'⟩ := hpre
        cases t' with
        | nil => simp [List.isPrefixOf]
        | cons m2 t'' =>
          have hrec := ih (m2 :: t'') (by simp)
            ⟨u ++ [m], by simp, by rw [List.append_assoc]; exact hut⟩ hpre'
          simp [List.isPrefixOf, hrec]

/-- The third pass of swapParentheses turns every sentinel block back into a
closing parenthesis and leaves every other block alone, provided the original
text did not itself contain the sentinel. -/
theorem replaceMarker_blocks :
    ∀ s : List Char, ¬ (markerChars <:+: s) →
      replaceSeq markerChars [')'] ((s.map gBlock).flatten) =
        s.map swapChar := by
  intro s
  induction s with
  | nil =>
    intro _
    simp only [List.map_nil, List.flatten_nil, replaceSeq_nil]
  | cons c s' ih =>
    intro h
    have hinf' : ¬ (markerChars <:+: s') := fun hx =>
      h (hx.trans (List.suffix_cons c s').isInfix)
    rw [List.map_cons, List.flatten_cons]
    by_cases hc : c = '('
    · subst hc
      have hgb : gBlock '(' = markerChars := by simp [gBlock]
      rw [hgb]
      have hstep := replaceSeq_cons_pos markerChars [')'] 'T'
        (markerTail ++ (s'.map gBlock).flatten) (by simp [markerChars])
        (by
          rw [List.isPrefixOf_iff_prefix]
          exact List.prefix_append markerChars _)
      have hdrop :
          (markerTail ++ (s'.map gBlock).flatten).drop (markerChars.length - 1)
            = (s'.map gBlock).flatten := by
        rw [show markerChars.length - 1 = markerTail.length from rfl,
          List.drop_left]
      rw [show markerChars ++ (s'.map gBlock).flatten =
          'T' :: (markerTail ++ (s'.map gBlock).flatten) from rfl, hstep, hdrop,
        ih hinf']
      simp [swapChar]
    · by_cases hc2 : c = ')'
      · subst hc2
        have hgb : gBlock ')' = ['('] := by simp [gBlock]
        rw [hgb, List.singleton_append,
          replaceSeq_cons_neg _ _ _ _ (by simp [markerChars, List.isPrefixOf]),
          ih hinf']
        simp [swapChar]
      · have hgb : gBlock c = [c] := by simp [gBlock, hc, hc2]
        have hnp : ¬ (markerChars.isPrefixOf (c :: (s'.map gBlock).flatten) = true) := by
          intro hp
          rw [List.isPrefixOf_iff_prefix] at hp
          obtain ⟨hTc, htailpre⟩ := List.cons_prefix_cons.mp hp
          have htail := marker_tail_from_text s' markerTail (by simp [markerTail])
            ⟨['T'], by simp, rfl⟩ (List.isPrefixOf_iff_prefix.mpr htailpre)
          apply h
          have hpre2 : ('T' :: markerTail) <+: (c :: s') :=
            List.cons_prefix_cons.mpr ⟨hTc, List.isPrefixOf_iff_prefix.mp htail⟩
          exact (hpre2 : markerChars <+: (c :: s')).isInfix
        rw [hgb, List.singleton_append, replaceSeq_cons_neg _ _ _ _ hnp,
          ih hinf']
        have hsw : swapChar c = c := by simp [swapChar, hc, hc2]
        rw [List.map_cons, hsw]

/-- C9 (amended): for every input string that does not contain the sentinel
substring TEMP_MARKER, swapParentheses replaces every opening parenthesis by
a closing one and vice versa and leaves all other characters unchanged.
(Inputs containing the sentinel are mangled; see the counterexample.) -/
theorem c9_swap_parentheses (s : String) (h : ¬ (markerChars <:+: s.data)) :
    (swapParentheses s).data = s.data.map swapChar := by
  have hdef : (swapParentheses s).data =
      replaceSeq markerChars [')']
        (replaceSeq [')'] ['('] (replaceSeq ['('] markerChars s.data)) := rfl
  rw [hdef, step12_eq]
  exact replaceMarker_blocks s.data h

/-- C9 counterexample: the input TEMP_MARKER contains no parenthesis, so the
claim says it is returned unchanged, but swapParentheses collapses it to a
single closing parenthesis. -/
theorem c9_swap_parentheses_counterexample :
    (swapParentheses markerStr).data = [')'] ∧
      markerStr.data.map swapChar = markerStr.data ∧
      markerStr.data ≠ [')'] := by
  refine ⟨?_, by decide, by decide⟩
  have h0 : markerStr.data = markerChars := by decide
  have h1 : replaceSeq ['('] markerChars markerStr.data = markerChars := by
    rw [h0, replaceSeq_one_eq]
    rfl
  have h2 : replaceSeq [')'] ['('] markerChars = markerChars := by
    rw [replaceSeq_one_eq]
    rfl
  have h3 : replaceSeq markerChars [')'] markerChars = [')'] := by
    have hstep := replaceSeq_cons_pos markerChars [')'] 'T' markerTail
      (by simp [markerChars])
      (by
        rw [List.isPrefixOf_iff_prefix]
        exact List.prefix_refl markerChars)
    have hdrop : markerTail.drop (markerChars.length - 1) = [] := rfl
    exact hstep.trans (by rw [hdrop, replaceSeq_nil, List.append_nil])
  have hdef : (swapParentheses markerStr).data =
      replaceSeq markerChars [')']
        (replaceSeq [')'] ['('] (replaceSeq ['('] markerChars markerStr.data)) :=
    rfl
  rw [hdef, h1, h2, h3]

/-- C9 witness: a parenthesised word free of the sentinel is swapped
character-wise. -/
theorem c9_swap_parentheses_witness :
    (¬ (markerChars <:+: parenTest.data)) ∧
      (swapParentheses parenTest).data = parenTest.data.map swapChar := by
  have h : ¬ (markerChars <:+: parenTest.data) := by decide
  exact ⟨h, c9_swap_parentheses parenTest h⟩

end JsPdfRtl
